import Mathlib

/-!
# bootstrap_process_wrapper: placeholder substitution and launch flow

A shallow embedding of `util/process_wrapper/private/bootstrap_process_wrapper.cc`.

* A `std::string` is a list of characters (`Str`); one `Char` stands for one C++ `char`.
* `std::string::find` and `std::string::replace` are embedded as `find` and `replace`,
  and the `while` loop of `replace_pwd_placeholder` as `replaceLoop`, a function defined
  by well-founded recursion on `out.length - pos`.
* `main` is embedded as a pure function of the platform, the argument vector and the
  answers of the operating system (`getcwd`, `execvp`, `_spawnvp`), returning the calls
  made, the lines written to the error stream and how the process ends.
-/

namespace BootstrapProcessWrapper

/-- A `std::string`: a sequence of `char`. -/
abbrev Str := List Char

/-- `kPwdPlaceholder = "${pwd}"` (line 18). -/
def kPwdPlaceholder : Str := ['$', '{', 'p', 'w', 'd', '}']

/-- The scan of `std::string::find`: `s` is the text from absolute index `i` on; the
first index at which `needle` is a prefix of the remaining text, if any. An empty
needle is found at every index up to and including the end of the text. -/
def findAux (needle : Str) : Str → Nat → Option Nat
  | [], i => if needle.isPrefixOf [] then some i else none
  | c :: cs, i => if needle.isPrefixOf (c :: cs) then some i else findAux needle cs (i + 1)

/-- `s.find(needle, pos)`: the lowest index `p ≥ pos` at which `needle` occurs in `s`;
`none` stands for `std::string::npos`. -/
def find (s needle : Str) (pos : Nat) : Option Nat :=
  if pos > s.length then none else findAux needle (s.drop pos) pos

/-- `s.replace(pos, len, str)` for `pos ≤ s.size()`: the `len` characters from `pos`
(fewer when the string ends earlier) are replaced by `str`. -/
def replace (s : Str) (pos len : Nat) (str : Str) : Str :=
  s.take pos ++ str ++ s.drop (pos + len)

/-- The loop of `replace_pwd_placeholder` (lines 24-27), entered with the current
string `out` and the scan position `pos`. -/
def replaceLoop (pwd : Str) (out : Str) (pos : Nat) : Str :=
  match h : find out kPwdPlaceholder pos with
  | none => out
  | some p =>
    replaceLoop pwd (replace out p kPwdPlaceholder.length pwd) (p + pwd.length)
termination_by out.length - pos
decreasing_by
  -- an occurrence found from `pos` on lies at or after `pos` and ends inside `out`
  have scan : ∀ (s : Str) (i q : Nat), findAux kPwdPlaceholder s i = some q →
      i ≤ q ∧ q + 6 ≤ i + s.length := by
    intro s
    induction s with
    | nil => intro i q hq; cases hq
    | cons c cs ih =>
      intro i q hq
      unfold findAux at hq
      split at hq
      · rename_i hpre
        have hlen := (List.isPrefixOf_iff_prefix.mp hpre).length_le
        have hk : kPwdPlaceholder.length = 6 := rfl
        injection hq with hq
        simp only [List.length_cons] at hlen ⊢
        omega
      · have := ih (i + 1) q hq
        simp only [List.length_cons]
        omega
  have hb : pos ≤ p ∧ p + 6 ≤ out.length := by
    unfold find at h
    split at h
    · cases h
    · have := scan _ _ _ h
      rw [List.length_drop] at this
      omega
  have hk : kPwdPlaceholder.length = 6 := rfl
  simp only [replace, List.length_append, List.length_take, List.length_drop]
  omega

/-- `replace_pwd_placeholder(arg, pwd)` (lines 20-29). -/
def replace_pwd_placeholder (arg pwd : Str) : Str :=
  replaceLoop pwd arg 0

/-- The same loop with an iteration budget: `none` when the budget is used up before the
loop condition fails, `some out` when the loop is left with the string `out`. -/
def replaceLoopFuel (pwd : Str) : Nat → Str → Nat → Option Str
  | 0, _, _ => none
  | fuel + 1, out, pos =>
    match find out kPwdPlaceholder pos with
    | none => some out
    | some p =>
      replaceLoopFuel pwd fuel (replace out p kPwdPlaceholder.length pwd) (p + pwd.length)

/-- The placeholder stands in `s` at index `i`. -/
def occursAt (s : Str) (i : Nat) : Bool :=
  kPwdPlaceholder.isPrefixOf (s.drop i)

/-- The indices at which the literal text `${pwd}` occurs in `s`, in increasing order. -/
def occurrences (s : Str) : List Nat :=
  (List.range (s.length + 1)).filter (occursAt s)

/-- The working directory `pwd` has no overlap with the placeholder: `pwd` is not a part
of `${pwd}` (so it is not empty), `${pwd}` is not a part of `pwd`, and `pwd` neither
begins with a proper ending of `${pwd}` nor ends with a proper beginning of it. -/
abbrev overlapFree (pwd : Str) : Prop :=
  ¬ pwd <:+: kPwdPlaceholder ∧ ¬ kPwdPlaceholder <:+: pwd ∧
    ∀ k, k < 6 → 0 < k →
      ¬ kPwdPlaceholder.drop k <+: pwd ∧ ¬ kPwdPlaceholder.take k <:+ pwd

/-- Reference single-pass substitution, following the specification: a string without
an occurrence is returned as it is; otherwise the text before the leftmost occurrence is
kept, the working directory stands for the occurrence, and the text after the occurrence
is substituted in the same way. -/
def substitute_reference (arg pwd : Str) : Str :=
  match h : (occurrences arg).head? with
  | none => arg
  | some i =>
    arg.take i ++ pwd ++ substitute_reference (arg.drop (i + kPwdPlaceholder.length)) pwd
termination_by arg.length
decreasing_by
  have hmem : i ∈ occurrences arg := List.mem_of_mem_head? h
  have hocc : occursAt arg i = true := (List.mem_filter.mp hmem).2
  have hlen := (List.isPrefixOf_iff_prefix.mp hocc).length_le
  have hk : kPwdPlaceholder.length = 6 := rfl
  simp only [List.length_drop] at hlen ⊢
  omega

/-- The two configurations the file is compiled in: with `_WIN32` defined or not. -/
inductive Platform where
  | posix
  | win32
  deriving DecidableEq, Repr

/-- What `_spawnvp(_P_WAIT, ...)` does: the child cannot be started, or it runs and ends
with an exit status. -/
inductive SpawnOutcome where
  | launchFailed
  | exited (status : Int)
  deriving DecidableEq, Repr

/-- The value `_spawnvp(_P_WAIT, ...)` returns to its caller: `-1` when the child could
not be started, the exit status of the child otherwise. -/
def SpawnOutcome.returnValue : SpawnOutcome → Int
  | .launchFailed => -1
  | .exited status => status

/-- The conversion of line 79, `int exit_code = _spawnvp(...)`: the `intptr_t` value is
stored in a 32-bit `int`, which keeps it modulo `2 ^ 32`, read as a signed number. -/
def to_int (r : Int) : Int :=
  (r + 2 ^ 31) % 2 ^ 32 - 2 ^ 31

/-- The answers of the operating system to the calls of `main`. `getcwd` is `none` when
the call returns `nullptr`; `execvp` is `true` when the process image is replaced (the
call does not return) and `false` when the call returns. The launch calls receive the
file name `exec_argv[0]` and the array `exec_argv.data()`. -/
structure System where
  getcwd : Option Str
  execvp : Option Str → List (Option Str) → Bool
  _spawnvp : Option Str → List (Option Str) → SpawnOutcome

/-- A call of `main` to the operating system. -/
inductive Call where
  | getcwd
  | execvp (file : Option Str) (argv : List (Option Str))
  | _spawnvp (file : Option Str) (argv : List (Option Str))
  deriving DecidableEq, Repr

/-- A write to the error stream: the text of an `fprintf(stderr, ...)`, or a `perror`
with its label, which prints the label and the description of the system error. -/
inductive ErrLine where
  | text (s : String)
  | perror (label : String)
  deriving DecidableEq, Repr

/-- How the launcher process ends: `main` returns a status, or `execvp` has replaced the
process image and the launcher's code is not run any further. -/
inductive Finish where
  | exit (status : Int)
  | replaced
  deriving DecidableEq, Repr

/-- One run of `main`: the calls made, in order, the writes to the error stream, in
order, and the end of the process. -/
structure Run where
  calls : List Call
  stderr : List ErrLine
  finish : Finish
  deriving DecidableEq, Repr

/-- The separator token `"--"` of line 45. -/
def separator : Str := ['-', '-']

/-- The value of `first_arg_index` after lines 44-47. -/
def first_arg_index (argv : List Str) : Nat :=
  if argv.length > 1 ∧ argv[1]? = some separator then 2 else 1

/-- The loop of lines 64-66 from index `i` on, `acc` being `command_args` so far. -/
def command_args_loop (argv : List Str) (pwd : Str) (i : Nat) (acc : List Str) : List Str :=
  if h : i < argv.length then
    command_args_loop argv pwd (i + 1) (acc ++ [replace_pwd_placeholder argv[i] pwd])
  else acc
termination_by argv.length - i

/-- The vector `command_args` after lines 62-66. -/
def command_args (argv : List Str) (pwd : Str) : List Str :=
  command_args_loop argv pwd (first_arg_index argv) []

/-- The loop body of lines 69-73 over one string: every `'/'` becomes `'\\'`. -/
def normalize_separators (s : Str) : Str :=
  s.map fun c => if c = '/' then '\\' else c

/-- Lines 68-74: under `_WIN32` the loop runs over `command_args[0]`; elsewhere the
vector is left as it is. -/
def normalize_executable : Platform → List Str → List Str
  | .win32, exe :: rest => normalize_separators exe :: rest
  | _, args => args

/-- `build_exec_argv(args)` (lines 31-39): one pointer for each string, then `nullptr`,
written `none`. -/
def build_exec_argv (args : List Str) : List (Option Str) :=
  args.map some ++ [none]

/-- The arguments a launched program receives from an argument array: the strings
before the first `nullptr`. -/
def launched_command (exec_argv : List (Option Str)) : List Str :=
  (exec_argv.takeWhile Option.isSome).filterMap id

/-- Lines 76-89: the launch, under `_WIN32` by `_spawnvp` and elsewhere by `execvp`. -/
def launch (plat : Platform) (sys : System) (exec_argv : List (Option Str)) : Run :=
  let file := exec_argv.head?.join
  match plat with
  | .win32 =>
    let exit_code := to_int (sys._spawnvp file exec_argv).returnValue
    if exit_code = -1 then
      { calls := [._spawnvp file exec_argv],
        stderr := [.perror "bootstrap_process_wrapper: _spawnvp"],
        finish := .exit 1 }
    else
      { calls := [._spawnvp file exec_argv], stderr := [], finish := .exit exit_code }
  | .posix =>
    if sys.execvp file exec_argv then
      { calls := [.execvp file exec_argv], stderr := [], finish := .replaced }
    else
      { calls := [.execvp file exec_argv],
        stderr := [.perror "bootstrap_process_wrapper: execvp"],
        finish := .exit 1 }

/-- The array `exec_argv` that `main` builds on a platform from `argv` and the working
directory (lines 62-76). -/
def exec_argv (plat : Platform) (argv : List Str) (pwd : Str) : List (Option Str) :=
  build_exec_argv (normalize_executable plat (command_args argv pwd))

/-- Lines 50-51: the run that reports a missing command: no call to the operating
system, one line on the error stream, status `1`. -/
def missing_command : Run :=
  { calls := [],
    stderr := [.text "bootstrap_process_wrapper: missing command\n"],
    finish := .exit 1 }

/-- The function `main` (lines 43-90); `argc` is the length of `argv`. -/
def main (plat : Platform) (sys : System) (argv : List Str) : Run :=
  if first_arg_index argv ≥ argv.length then missing_command
  else
    match sys.getcwd with
    | none =>
      { calls := [.getcwd],
        stderr := [.perror "bootstrap_process_wrapper: getcwd"],
        finish := .exit 1 }
    | some pwd =>
      let run := launch plat sys (exec_argv plat argv pwd)
      { run with calls := .getcwd :: run.calls }

/-- An operating system for the scenarios: `getcwd` answers `cwd`, `execvp` replaces the
process image when `launch_ok` holds and returns otherwise, and `_spawnvp` does what
`spawn` says. -/
def scenario_system (cwd : Option Str) (launch_ok : Bool) (spawn : SpawnOutcome) : System :=
  { getcwd := cwd, execvp := fun _ _ => launch_ok, _spawnvp := fun _ _ => spawn }

/-! ## Searching and replacing -/

/-- Where `find` reports an index, the whole needle lies inside the string from there. -/
theorem findAux_bounds (needle : Str) :
    ∀ (s : Str) (i p : Nat), findAux needle s i = some p →
      i ≤ p ∧ p + needle.length ≤ i + s.length ∧ needle.isPrefixOf (s.drop (p - i)) = true := by
  intro s
  induction s with
  | nil =>
    intro i p h
    unfold findAux at h
    split at h
    · rename_i hp
      injection h with h
      subst h
      have : needle = [] := by
        cases needle with
        | nil => rfl
        | cons a t => simp [List.isPrefixOf] at hp
      subst this
      simp
    · cases h
  | cons c cs ih =>
    intro i p h
    unfold findAux at h
    split at h
    · rename_i hp
      injection h with h
      subst h
      refine ⟨le_refl _, ?_, by simpa using hp⟩
      have hl := (List.isPrefixOf_iff_prefix.mp hp).length_le
      omega
    · obtain ⟨h1, h2, h3⟩ := ih (i + 1) p h
      refine ⟨by omega, by simp only [List.length_cons]; omega, ?_⟩
      have : p - i = (p - (i + 1)) + 1 := by omega
      rw [this, List.drop_succ_cons]
      exact h3

/-- A successful `find` returns an index at or after the start position, with room for
the needle before the end of the string. -/
theorem find_bounds {s needle : Str} {pos p : Nat} (h : find s needle pos = some p) :
    pos ≤ p ∧ p + needle.length ≤ s.length := by
  unfold find at h
  split at h
  · cases h
  · rename_i hpos
    obtain ⟨h1, h2, _⟩ := findAux_bounds needle _ _ _ h
    refine ⟨h1, ?_⟩
    rw [List.length_drop] at h2
    omega

/-- The placeholder has six characters. -/
theorem kPwdPlaceholder_length : kPwdPlaceholder.length = 6 := rfl

/-- A needle is a prefix of a text exactly when the text agrees with it at every index
of the needle. -/
theorem isPrefixOf_iff_getElem? (n : Str) :
    ∀ l : Str, n.isPrefixOf l = true ↔ ∀ j, j < n.length → l[j]? = n[j]? := by
  induction n with
  | nil => intro l; simp
  | cons a t ih =>
    intro l
    cases l with
    | nil =>
      simp only [List.isPrefixOf, List.length_cons]
      constructor
      · intro h
        cases h
      · intro h
        have := h 0 (by omega)
        simp at this
    | cons b u =>
      simp only [List.isPrefixOf, Bool.and_eq_true, beq_iff_eq, ih u, List.length_cons]
      constructor
      · rintro ⟨hab, h⟩ j hj
        cases j with
        | zero => simp [hab]
        | succ k => simpa using h k (by omega)
      · intro h
        refine ⟨?_, fun j hj => ?_⟩
        · have := h 0 (by omega)
          simpa using this.symm
        · simpa using h (j + 1) (by omega)

/-- The placeholder stands at index `i` exactly when the six characters from `i` on are
those of the placeholder. -/
theorem occursAt_iff (s : Str) (i : Nat) :
    occursAt s i = true ↔ ∀ j, j < 6 → s[i + j]? = kPwdPlaceholder[j]? := by
  unfold occursAt
  rw [isPrefixOf_iff_getElem?]
  simp only [List.getElem?_drop, kPwdPlaceholder_length]

/-- An occurrence of the placeholder ends inside the text. -/
theorem occursAt_length {s : Str} {i : Nat} (h : occursAt s i = true) : i + 6 ≤ s.length := by
  have h5 := (occursAt_iff s i).mp h 5 (by omega)
  by_contra hc
  rw [List.getElem?_eq_none (by omega)] at h5
  simp [kPwdPlaceholder] at h5

/-- The index reported by the scan is relative to the index the scan starts from. -/
theorem findAux_shift (needle : Str) :
    ∀ (s : Str) (i : Nat), findAux needle s i = (findAux needle s 0).map (· + i) := by
  intro s
  induction s with
  | nil =>
    intro i
    unfold findAux
    split <;> simp
  | cons c cs ih =>
    intro i
    unfold findAux
    split
    · simp
    · rw [ih (i + 1), ih (0 + 1)]
      cases findAux needle cs 0 with
      | none => rfl
      | some q => simp; omega

/-- A scan that reports nothing has met no index at which the needle stands. -/
theorem findAux_none (needle : Str) :
    ∀ (s : Str) (i : Nat), findAux needle s i = none →
      ∀ q, needle.isPrefixOf (s.drop q) = false := by
  intro s
  induction s with
  | nil =>
    intro i h q
    unfold findAux at h
    split at h
    · cases h
    · rename_i hn
      rw [List.drop_nil]
      exact Bool.eq_false_iff.mpr hn
  | cons c cs ih =>
    intro i h q
    unfold findAux at h
    split at h
    · cases h
    · cases q with
      | zero =>
        rename_i hn
        rw [List.drop_zero]
        exact Bool.eq_false_iff.mpr hn
      | succ k => simpa using ih (i + 1) h k

/-- A scan started at index `0` reports the least index at which the needle stands. -/
theorem findAux_some (needle : Str) :
    ∀ (s : Str) (p : Nat), findAux needle s 0 = some p →
      needle.isPrefixOf (s.drop p) = true ∧ ∀ q, q < p → needle.isPrefixOf (s.drop q) = false := by
  intro s
  induction s with
  | nil =>
    intro p h
    unfold findAux at h
    split at h
    · injection h with h
      subst h
      exact ⟨by simpa using ‹needle.isPrefixOf [] = true›, fun q hq => absurd hq (by omega)⟩
    · cases h
  | cons c cs ih =>
    intro p h
    unfold findAux at h
    split at h
    · injection h with h
      subst h
      exact ⟨by simpa using ‹needle.isPrefixOf (c :: cs) = true›, fun q hq => absurd hq (by omega)⟩
    · rw [findAux_shift] at h
      cases hq : findAux needle cs 0 with
      | none => rw [hq] at h; cases h
      | some r =>
        rw [hq] at h
        simp only [Option.map_some', Option.some.injEq] at h
        subst h
        obtain ⟨h1, h2⟩ := ih r hq
        refine ⟨by simpa using h1, fun q hq2 => ?_⟩
        cases q with
        | zero =>
        rename_i hn
        rw [List.drop_zero]
        exact Bool.eq_false_iff.mpr hn
        | succ k => simpa using h2 k (by omega)

/-- Searching from the end of a prefix `pre` finds what a search of the rest finds,
moved by the length of `pre`. -/
theorem find_append (pre s needle : Str) :
    find (pre ++ s) needle pre.length = (find s needle 0).map (· + pre.length) := by
  unfold find
  simp only [List.length_append, gt_iff_lt, List.drop_left, List.drop_zero]
  rw [if_neg (by omega), if_neg (by omega)]
  exact findAux_shift needle s pre.length

/-- When the search from the start finds nothing, the placeholder stands nowhere. -/
theorem find_zero_none {s : Str} (h : find s kPwdPlaceholder 0 = none) (q : Nat) :
    occursAt s q = false := by
  unfold find at h
  rw [if_neg (by omega)] at h
  exact findAux_none _ _ _ h q

/-- The search from the start finds the leftmost occurrence of the placeholder. -/
theorem find_zero_some {s : Str} {p : Nat} (h : find s kPwdPlaceholder 0 = some p) :
    occursAt s p = true ∧ ∀ q, q < p → occursAt s q = false := by
  unfold find at h
  rw [if_neg (by omega)] at h
  exact findAux_some _ _ _ h

/-- The loop is left when `find` returns `npos`. -/
theorem replaceLoop_none {pwd out : Str} {pos : Nat}
    (h : find out kPwdPlaceholder pos = none) : replaceLoop pwd out pos = out := by
  rw [replaceLoop]
  split
  · rfl
  · simp_all

/-- One iteration of the loop, when `find` returns the index `p`. -/
theorem replaceLoop_some {pwd out : Str} {pos p : Nat}
    (h : find out kPwdPlaceholder pos = some p) :
    replaceLoop pwd out pos
      = replaceLoop pwd (replace out p kPwdPlaceholder.length pwd) (p + pwd.length) := by
  rw [replaceLoop]
  split
  · simp_all
  · rename_i q hq
    rw [h] at hq
    injection hq with hq
    subst hq
    rfl

/-- Replacing the occurrence found at `q` in `s`, seen after a prefix `pre`. -/
theorem replace_append (pre s pwd : Str) (q len : Nat) :
    replace (pre ++ s) (q + pre.length) len pwd
      = (pre ++ s.take q ++ pwd) ++ s.drop (q + len) := by
  unfold replace
  have h1 : (pre ++ s).take (q + pre.length) = pre ++ s.take q := by
    rw [List.take_append_eq_append_take]
    have : q + pre.length - pre.length = q := by omega
    rw [this, List.take_of_length_le (by omega)]
  have h2 : (pre ++ s).drop (q + pre.length + len) = s.drop (q + len) := by
    rw [List.drop_append_eq_append_drop]
    have : q + pre.length + len - pre.length = q + len := by omega
    rw [this, List.drop_of_length_le (by omega), List.nil_append]
  rw [h1, h2]

/-- The loop entered at the end of a prefix `pre` keeps `pre` and works on the rest as
a loop entered at position `0` would. -/
theorem replaceLoop_append (pwd : Str) :
    ∀ (n : Nat) (s pre : Str), s.length ≤ n →
      replaceLoop pwd (pre ++ s) pre.length = pre ++ replaceLoop pwd s 0 := by
  intro n
  induction n with
  | zero =>
    intro s pre hs
    have : s = [] := List.length_eq_zero.mp (by omega)
    subst this
    have h0 : find ([] : Str) kPwdPlaceholder 0 = none := by decide
    have h1 : find (pre ++ []) kPwdPlaceholder pre.length = none := by
      rw [find_append, h0]; rfl
    rw [replaceLoop_none h0, replaceLoop_none h1]
  | succ n ih =>
    intro s pre hs
    cases hf : find s kPwdPlaceholder 0 with
    | none =>
      have h1 : find (pre ++ s) kPwdPlaceholder pre.length = none := by
        rw [find_append, hf]; rfl
      rw [replaceLoop_none hf, replaceLoop_none h1]
    | some q =>
      have h1 : find (pre ++ s) kPwdPlaceholder pre.length = some (q + pre.length) := by
        rw [find_append, hf]; rfl
      have hb := (find_bounds hf).2
      rw [kPwdPlaceholder_length] at hb
      have hlen : (s.drop (q + kPwdPlaceholder.length)).length ≤ n := by
        rw [List.length_drop, kPwdPlaceholder_length]; omega
      have e1 := replace_append pre s pwd q kPwdPlaceholder.length
      have e2 := replace_append [] s pwd q kPwdPlaceholder.length
      simp only [List.length_nil, Nat.add_zero, List.nil_append] at e2
      have l1 : (pre ++ s.take q ++ pwd).length = q + pre.length + pwd.length := by
        simp only [List.length_append, List.length_take]; omega
      have l2 : (s.take q ++ pwd).length = q + pwd.length := by
        simp only [List.length_append, List.length_take]; omega
      rw [replaceLoop_some hf, replaceLoop_some h1, e1, e2, ← l1, ← l2,
        ih _ _ hlen, ih _ _ hlen]
      simp only [List.append_assoc]

/-- One round of `replace_pwd_placeholder`, when the argument has no occurrence. -/
theorem replace_pwd_placeholder_none {arg : Str} (pwd : Str)
    (h : find arg kPwdPlaceholder 0 = none) : replace_pwd_placeholder arg pwd = arg :=
  replaceLoop_none h

/-- One round of `replace_pwd_placeholder`, when the leftmost occurrence is at `q`: the
text before it, the working directory, and the substitution of the text after it. -/
theorem replace_pwd_placeholder_some {arg : Str} (pwd : Str) {q : Nat}
    (h : find arg kPwdPlaceholder 0 = some q) :
    replace_pwd_placeholder arg pwd
      = arg.take q ++ pwd ++ replace_pwd_placeholder (arg.drop (q + 6)) pwd := by
  have hb := (find_bounds h).2
  have e2 := replace_append [] arg pwd q kPwdPlaceholder.length
  simp only [List.length_nil, Nat.add_zero, List.nil_append] at e2
  have l2 : (arg.take q ++ pwd).length = q + pwd.length := by
    simp only [List.length_append, List.length_take]; omega
  unfold replace_pwd_placeholder
  rw [replaceLoop_some h, e2, ← l2, replaceLoop_append pwd _ _ _ (le_refl _)]
  rfl

/-- With a budget above `out.length - pos` the budgeted loop ends as the loop does. -/
theorem replaceLoopFuel_eq (pwd : Str) :
    ∀ (fuel : Nat) (out : Str) (pos : Nat), out.length - pos < fuel →
      replaceLoopFuel pwd fuel out pos = some (replaceLoop pwd out pos) := by
  intro fuel
  induction fuel with
  | zero => intro out pos h; omega
  | succ fuel ih =>
    intro out pos h
    unfold replaceLoopFuel
    cases hf : find out kPwdPlaceholder pos with
    | none => simp only [replaceLoop_none hf]
    | some p =>
      simp only
      have hb := find_bounds hf
      rw [kPwdPlaceholder_length] at hb
      rw [replaceLoop_some hf]
      apply ih
      simp only [replace, List.length_append, List.length_take, List.length_drop,
        kPwdPlaceholder_length]
      omega

/-- An index is listed by `occurrences` exactly when the placeholder stands there. -/
theorem mem_occurrences (s : Str) (i : Nat) : i ∈ occurrences s ↔ occursAt s i = true := by
  unfold occurrences
  rw [List.mem_filter, List.mem_range]
  constructor
  · exact fun h => h.2
  · intro h
    have := occursAt_length h
    exact ⟨by omega, h⟩

/-- The first index a filter keeps from `0, 1, ..., n - 1` is the least index with the
property. -/
theorem head?_filter_range (p : Nat → Bool) (n i : Nat) (hi : i < n) (hp : p i = true)
    (hmin : ∀ q, q < i → p q = false) : ((List.range n).filter p).head? = some i := by
  obtain ⟨k, rfl⟩ : ∃ k, n = i + (k + 1) := ⟨n - i - 1, by omega⟩
  rw [List.range_add, List.filter_append]
  have h0 : (List.range i).filter p = [] := by
    rw [List.filter_eq_nil_iff]
    intro a ha
    rw [List.mem_range] at ha
    simp [hmin a ha]
  rw [h0, List.nil_append, List.range_succ_eq_map, List.map_cons, List.filter_cons]
  simp [hp]

/-- The search of the code from position `0` and the leftmost listed occurrence are the
same index. -/
theorem find_zero_eq_head? (s : Str) :
    find s kPwdPlaceholder 0 = (occurrences s).head? := by
  cases hf : find s kPwdPlaceholder 0 with
  | none =>
    have : occurrences s = [] := by
      unfold occurrences
      rw [List.filter_eq_nil_iff]
      intro a _
      simp [find_zero_none hf a]
    rw [this]
    rfl
  | some p =>
    obtain ⟨h1, h2⟩ := find_zero_some hf
    have := occursAt_length h1
    exact (head?_filter_range _ _ p (by omega) h1 h2).symm

/-- The reference substitution of an argument without an occurrence. -/
theorem substitute_reference_none {arg : Str} (pwd : Str)
    (h : (occurrences arg).head? = none) : substitute_reference arg pwd = arg := by
  rw [substitute_reference]
  split
  · rfl
  · simp_all

/-- The reference substitution of an argument whose leftmost occurrence is at `i`. -/
theorem substitute_reference_some {arg : Str} (pwd : Str) {i : Nat}
    (h : (occurrences arg).head? = some i) :
    substitute_reference arg pwd
      = arg.take i ++ pwd ++ substitute_reference (arg.drop (i + 6)) pwd := by
  rw [substitute_reference]
  split
  · simp_all
  · rename_i q hq
    rw [h] at hq
    injection hq with hq
    subst hq
    rfl

/-- The loop of the code computes the reference substitution. -/
theorem replace_pwd_placeholder_eq_reference (pwd : Str) :
    ∀ (n : Nat) (arg : Str), arg.length ≤ n →
      replace_pwd_placeholder arg pwd = substitute_reference arg pwd := by
  intro n
  induction n with
  | zero =>
    intro arg h
    have : arg = [] := List.length_eq_zero.mp (by omega)
    subst this
    have h0 : find ([] : Str) kPwdPlaceholder 0 = none := by decide
    rw [replace_pwd_placeholder_none pwd h0,
      substitute_reference_none pwd (by rw [← find_zero_eq_head?]; exact h0)]
  | succ n ih =>
    intro arg h
    cases hf : find arg kPwdPlaceholder 0 with
    | none =>
      rw [replace_pwd_placeholder_none pwd hf,
        substitute_reference_none pwd (by rw [← find_zero_eq_head?]; exact hf)]
    | some q =>
      have hb := (find_bounds hf).2
      rw [kPwdPlaceholder_length] at hb
      rw [replace_pwd_placeholder_some pwd hf,
        substitute_reference_some pwd (by rw [← find_zero_eq_head?]; exact hf),
        ih (arg.drop (q + 6)) (by rw [List.length_drop]; omega)]

/-- The character at an index of a text made of three parts. -/
theorem getElem?_append3 (a p r : Str) (k : Nat) :
    (a ++ p ++ r)[k]? =
      if k < a.length then a[k]?
      else if k < a.length + p.length then p[k - a.length]?
      else r[k - a.length - p.length]? := by
  by_cases h1 : k < a.length
  · rw [if_pos h1, List.getElem?_append_left (by rw [List.length_append]; omega),
      List.getElem?_append_left h1]
  · rw [if_neg h1]
    by_cases h2 : k < a.length + p.length
    · rw [if_pos h2, List.getElem?_append_left (by rw [List.length_append]; omega),
        List.getElem?_append_right (by omega)]
    · rw [if_neg h2, List.getElem?_append_right (by rw [List.length_append]; omega),
        List.length_append]
      congr 1
      omega

/-- Where the placeholder stands at an index, it is a part of the text. -/
theorem infix_of_occursAt {s : Str} {i : Nat} (h : occursAt s i = true) :
    kPwdPlaceholder <:+: s := by
  unfold occursAt at h
  rw [List.isPrefixOf_iff_prefix] at h
  exact h.isInfix.trans (List.drop_suffix i s).isInfix

/-- A working directory without overlap with the placeholder: in a text `u ++ pwd ++ v`
every occurrence of the placeholder lies in `u` or in `v`. -/
theorem overlapFree_separates {pwd : Str} (h : overlapFree pwd) (u v : Str) (i : Nat)
    (hocc : occursAt (u ++ pwd ++ v) i = true) :
    i + 6 ≤ u.length ∨ u.length + pwd.length ≤ i := by
  obtain ⟨ha, hb, hcd⟩ := h
  by_contra hcon
  have h1 : u.length < i + 6 := by omega
  have h2 : i < u.length + pwd.length := by omega
  rw [occursAt_iff] at hocc
  have hget : ∀ j, j < 6 → u.length ≤ i + j → i + j < u.length + pwd.length →
      pwd[i + j - u.length]? = kPwdPlaceholder[j]? := by
    intro j hj hlo hhi
    have := hocc j hj
    rw [getElem?_append3, if_neg (by omega), if_pos hhi] at this
    exact this
  by_cases c1 : u.length ≤ i
  · by_cases c2 : i + 6 ≤ u.length + pwd.length
    · -- the occurrence lies inside `pwd`
      apply hb
      apply infix_of_occursAt (i := i - u.length)
      rw [occursAt_iff]
      intro j hj
      have := hget j hj (by omega) (by omega)
      have e : i + j - u.length = i - u.length + j := by omega
      rw [e] at this
      exact this
    · by_cases c3 : i = u.length
      · -- the occurrence begins with `pwd` and goes on after it
        apply ha
        have : pwd = kPwdPlaceholder.take pwd.length := by
          apply List.ext_getElem?
          intro j
          by_cases hj : j < pwd.length
          · rw [List.getElem?_take_of_lt hj]
            have := hget j (by omega) (by omega) (by omega)
            have e : i + j - u.length = j := by omega
            rw [e] at this
            exact this
          · rw [List.getElem?_eq_none (by omega), List.getElem?_take_eq_none (by omega)]
        rw [this]
        exact (List.take_prefix _ _).isInfix
      · -- the occurrence begins inside `pwd` and goes on after it
        have hk : u.length + pwd.length - i < 6 := by omega
        apply (hcd (u.length + pwd.length - i) hk (by omega)).2
        have : pwd.drop (i - u.length)
            = kPwdPlaceholder.take (u.length + pwd.length - i) := by
          apply List.ext_getElem?
          intro j
          rw [List.getElem?_drop]
          by_cases hj : j < u.length + pwd.length - i
          · rw [List.getElem?_take_of_lt hj]
            have := hget j (by omega) (by omega) (by omega)
            have e : i + j - u.length = i - u.length + j := by omega
            rw [e] at this
            exact this
          · rw [List.getElem?_eq_none (by omega), List.getElem?_take_eq_none (by omega)]
        rw [← this]
        exact List.drop_suffix _ _
  · by_cases c2 : u.length + pwd.length ≤ i + 6
    · -- `pwd` lies inside the occurrence
      apply ha
      have : pwd = (kPwdPlaceholder.drop (u.length - i)).take pwd.length := by
        apply List.ext_getElem?
        intro j
        by_cases hj : j < pwd.length
        · rw [List.getElem?_take_of_lt hj, List.getElem?_drop]
          have := hget (u.length - i + j) (by omega) (by omega) (by omega)
          have e : i + (u.length - i + j) - u.length = j := by omega
          rw [e] at this
          exact this
        · rw [List.getElem?_eq_none (by omega), List.getElem?_take_eq_none (by omega)]
      rw [this]
      exact (List.take_prefix _ _).isInfix.trans (List.drop_suffix _ _).isInfix
    · -- the occurrence begins before `pwd` and ends inside it
      have hk : u.length - i < 6 := by omega
      apply (hcd (u.length - i) hk (by omega)).1
      rw [← List.isPrefixOf_iff_prefix, isPrefixOf_iff_getElem?]
      intro j hj
      rw [List.length_drop, kPwdPlaceholder_length] at hj
      rw [List.getElem?_drop]
      have := hget (u.length - i + j) (by omega) (by omega) (by omega)
      have e : i + (u.length - i + j) - u.length = j := by omega
      rw [e] at this
      exact this

/-- When every occurrence in a text around `pwd` lies outside `pwd`, the result of the
substitution has no occurrence of the placeholder. -/
theorem occursAt_replace_pwd_placeholder_eq_false (pwd : Str)
    (hsep : ∀ (u v : Str) (i : Nat), occursAt (u ++ pwd ++ v) i = true →
      i + 6 ≤ u.length ∨ u.length + pwd.length ≤ i) :
    ∀ (n : Nat) (arg : Str), arg.length ≤ n →
      ∀ i, occursAt (replace_pwd_placeholder arg pwd) i = false := by
  intro n
  induction n with
  | zero =>
    intro arg h i
    have : arg = [] := List.length_eq_zero.mp (by omega)
    subst this
    have h0 : find ([] : Str) kPwdPlaceholder 0 = none := by decide
    rw [replace_pwd_placeholder_none pwd h0]
    exact find_zero_none h0 i
  | succ n ih =>
    intro arg h i
    cases hf : find arg kPwdPlaceholder 0 with
    | none =>
      rw [replace_pwd_placeholder_none pwd hf]
      exact find_zero_none hf i
    | some q =>
      have hb := (find_bounds hf).2
      rw [kPwdPlaceholder_length] at hb
      obtain ⟨_, hmin⟩ := find_zero_some hf
      have hrest := ih (arg.drop (q + 6)) (by rw [List.length_drop]; omega)
      rw [replace_pwd_placeholder_some pwd hf]
      rw [Bool.eq_false_iff]
      intro hocc
      have hA : (arg.take q).length = q := by rw [List.length_take]; omega
      have hcases := hsep _ _ i hocc
      rw [hA] at hcases
      rw [occursAt_iff] at hocc
      rcases hcases with c1 | c1
      · -- the occurrence lies in the text before the leftmost occurrence of `arg`
        have : occursAt arg i = true := by
          rw [occursAt_iff]
          intro j hj
          have := hocc j hj
          rw [getElem?_append3, hA, if_pos (by omega), List.getElem?_take_of_lt (by omega)] at this
          exact this
        rw [hmin i (by omega)] at this
        cases this
      · -- the occurrence lies in the substituted rest
        have : occursAt (replace_pwd_placeholder (arg.drop (q + 6)) pwd)
            (i - q - pwd.length) = true := by
          rw [occursAt_iff]
          intro j hj
          have := hocc j hj
          rw [getElem?_append3, hA, if_neg (by omega), if_neg (by omega)] at this
          have e : i + j - q - pwd.length = i - q - pwd.length + j := by omega
          rw [e] at this
          exact this
        rw [hrest] at this
        cases this

/-- A working directory that is not empty, begins with `'/'` and has no `'$'` has no
overlap with the placeholder. -/
theorem overlapFree_of_absolute {pwd : Str} (hne : pwd ≠ [])
    (hslash : pwd.head? = some '/') (hd : '$' ∉ pwd) : overlapFree pwd := by
  obtain ⟨c, t, rfl⟩ := List.exists_cons_of_ne_nil hne
  simp only [List.head?_cons, Option.some.injEq] at hslash
  subst hslash
  refine ⟨?_, ?_, ?_⟩
  · intro h
    have : '/' ∈ kPwdPlaceholder := h.mem (List.mem_cons_self _ _)
    revert this
    decide
  · intro h
    exact hd (h.mem (by decide))
  · intro k hk hk0
    have hk' : k = 1 ∨ k = 2 ∨ k = 3 ∨ k = 4 ∨ k = 5 := by omega
    constructor
    · rintro ⟨r, hr⟩
      rcases hk' with h | h | h | h | h <;> subst h <;>
        simp [kPwdPlaceholder] at hr
    · intro h
      apply hd
      apply h.isInfix.mem
      rcases hk' with h | h | h | h | h <;> subst h <;> decide

/-! ## The command built by `main` -/

/-- The loop of lines 64-66 appends the substituted `argv[i], argv[i + 1], ...`. -/
theorem command_args_loop_eq (argv : List Str) (pwd : Str) :
    ∀ (n i : Nat) (acc : List Str), argv.length - i ≤ n →
      command_args_loop argv pwd i acc
        = acc ++ (argv.drop i).map (fun a => replace_pwd_placeholder a pwd) := by
  intro n
  induction n with
  | zero =>
    intro i acc h
    rw [command_args_loop, dif_neg (by omega), List.drop_of_length_le (by omega)]
    simp
  | succ n ih =>
    intro i acc h
    rw [command_args_loop]
    by_cases hi : i < argv.length
    · rw [dif_pos hi, ih (i + 1) _ (by omega), List.drop_eq_getElem_cons hi, List.map_cons,
        List.append_assoc, List.singleton_append]
    · rw [dif_neg hi, List.drop_of_length_le (by omega)]
      simp

/-- The vector `command_args` is the forwarded command, substituted element by element. -/
theorem command_args_eq_map (argv : List Str) (pwd : Str) :
    command_args argv pwd
      = (argv.drop (first_arg_index argv)).map (fun a => replace_pwd_placeholder a pwd) := by
  unfold command_args
  rw [command_args_loop_eq argv pwd _ _ _ (le_refl _)]
  rfl

/-- A program started with the array of `build_exec_argv` receives the strings given. -/
theorem launched_command_build_exec_argv (args : List Str) :
    launched_command (build_exec_argv args) = args := by
  unfold launched_command build_exec_argv
  induction args with
  | nil => rfl
  | cons a t ih => simp [List.takeWhile]

/-- The result of the loop, read off a run of the budgeted loop. -/
theorem replace_pwd_placeholder_of_fuel (arg pwd r : Str)
    (h : replaceLoopFuel pwd (arg.length + 1) arg 0 = some r) :
    replace_pwd_placeholder arg pwd = r := by
  rw [replaceLoopFuel_eq pwd _ _ _ (by omega)] at h
  exact Option.some.inj h

/-- No index with an occurrence means an empty list of occurrences. -/
theorem occurrences_eq_nil {s : Str} (h : ∀ i, occursAt s i = false) : occurrences s = [] := by
  unfold occurrences
  rw [List.filter_eq_nil_iff]
  intro a _
  simp [h a]

/-- The list of occurrences is empty exactly when `${pwd}` is not a part of the text. -/
theorem occurrences_eq_nil_iff (s : Str) :
    occurrences s = [] ↔ ¬ kPwdPlaceholder <:+: s := by
  constructor
  · rintro h ⟨a, b, hab⟩
    have : occursAt s a.length = true := by
      unfold occursAt
      rw [List.isPrefixOf_iff_prefix, ← hab, List.append_assoc, List.drop_left]
      exact List.prefix_append _ _
    rw [← mem_occurrences, h] at this
    cases this
  · intro h
    apply occurrences_eq_nil
    intro i
    rw [Bool.eq_false_iff]
    intro hi
    apply h
    unfold occursAt at hi
    rw [List.isPrefixOf_iff_prefix] at hi
    exact hi.isInfix.trans (List.drop_suffix i s).isInfix

/-- The substitution leaves the proper endings of the placeholder as they are. -/
theorem replace_pwd_placeholder_drop (pwd : Str) (k : Nat) (hk0 : 0 < k) :
    replace_pwd_placeholder (kPwdPlaceholder.drop k) pwd = kPwdPlaceholder.drop k := by
  apply replace_pwd_placeholder_none
  by_cases hk : k < 7
  · have hd : ∀ m, m < 7 → 0 < m →
        find (kPwdPlaceholder.drop m) kPwdPlaceholder 0 = none := by decide
    exact hd k hk hk0
  · rw [List.drop_of_length_le (by rw [kPwdPlaceholder_length]; omega)]
    decide

/-- A text in which the placeholder stands has a non-empty list of occurrences. -/
theorem occurrences_append_ne_nil (pre post : Str) :
    occurrences (pre ++ kPwdPlaceholder ++ post) ≠ [] :=
  fun hc => (occurrences_eq_nil_iff _).mp hc ⟨pre, post, rfl⟩

/-- The condition of `overlapFree` cannot be weakened: for a working directory that
overlaps the placeholder, some argument with an occurrence of the placeholder has a
result with an occurrence. -/
theorem exists_occurrence_of_not_overlapFree (pwd : Str) (h : ¬ overlapFree pwd) :
    ∃ arg, occurrences arg ≠ [] ∧ occurrences (replace_pwd_placeholder arg pwd) ≠ [] := by
  have h0 : find ([] : Str) kPwdPlaceholder 0 = none := by decide
  have hnil : replace_pwd_placeholder [] pwd = [] := replace_pwd_placeholder_none pwd h0
  by_cases hb : kPwdPlaceholder <:+: pwd
  · -- the placeholder is a part of `pwd`: the argument `${pwd}` gives `pwd`
    refine ⟨kPwdPlaceholder, by decide, ?_⟩
    have hf : find kPwdPlaceholder kPwdPlaceholder 0 = some 0 := by decide
    rw [replace_pwd_placeholder_some pwd hf]
    have e : kPwdPlaceholder.drop (0 + 6) = [] := by decide
    rw [e, hnil, List.take_zero, List.nil_append, List.append_nil]
    exact fun hc => (occurrences_eq_nil_iff _).mp hc hb
  by_cases ha : pwd <:+: kPwdPlaceholder
  · -- `pwd` is a part of the placeholder: put the rest of the placeholder around it
    by_cases hne : pwd = []
    · subst hne
      refine ⟨"${${pwd}pwd}".toList, by decide, ?_⟩
      rw [replace_pwd_placeholder_of_fuel "${${pwd}pwd}".toList [] "${pwd}".toList (by decide)]
      decide
    · obtain ⟨a, b, hab⟩ := ha
      have hlen := congrArg List.length hab
      simp only [List.length_append, kPwdPlaceholder_length] at hlen
      have hp : 0 < pwd.length := List.length_pos.mpr hne
      have ha' : a = kPwdPlaceholder.take a.length := by
        rw [← hab, List.append_assoc, List.take_left]
      have hb' : b = kPwdPlaceholder.drop (a.length + pwd.length) := by
        rw [← hab, ← List.length_append, List.drop_left]
      have hfind : ∀ m, m < 6 → ∀ n, n < 7 →
          find (kPwdPlaceholder.take m ++ kPwdPlaceholder ++ kPwdPlaceholder.drop (m + n))
            kPwdPlaceholder 0 = some m := by decide
      refine ⟨a ++ kPwdPlaceholder ++ b, occurrences_append_ne_nil a b, ?_⟩
      have hf : find (a ++ kPwdPlaceholder ++ b) kPwdPlaceholder 0 = some a.length := by
        have := hfind a.length (by omega) pwd.length (by omega)
        rw [← ha', ← hb'] at this
        exact this
      have e1 : (a ++ kPwdPlaceholder ++ b).take a.length = a := by
        rw [List.append_assoc, List.take_left]
      have e2 : (a ++ kPwdPlaceholder ++ b).drop (a.length + 6) = b := by
        rw [← kPwdPlaceholder_length, ← List.length_append, List.drop_left]
      have e3 : replace_pwd_placeholder b pwd = b := by
        rw [hb']
        exact replace_pwd_placeholder_drop pwd _ (by omega)
      rw [replace_pwd_placeholder_some pwd hf, e1, e2, e3, hab]
      decide
  · -- `pwd` begins with an ending of the placeholder or ends with a beginning of it
    have hex : ∃ k, k < 6 ∧ 0 < k ∧
        (kPwdPlaceholder.drop k <+: pwd ∨ kPwdPlaceholder.take k <:+ pwd) := by
      by_contra hc
      apply h
      refine ⟨ha, hb, fun k hk hk0 => ⟨fun h1 => hc ⟨k, hk, hk0, Or.inl h1⟩,
        fun h2 => hc ⟨k, hk, hk0, Or.inr h2⟩⟩⟩
    obtain ⟨k, hk, hk0, hpre | hsuf⟩ := hex
    · -- the argument is the beginning of the placeholder, then the placeholder
      obtain ⟨t, ht⟩ := hpre
      have hfind : ∀ m, m < 6 →
          find (kPwdPlaceholder.take m ++ kPwdPlaceholder ++ []) kPwdPlaceholder 0
            = some m := by decide
      have hf := hfind k hk
      have hkl : (kPwdPlaceholder.take k).length = k := by
        rw [List.length_take, kPwdPlaceholder_length]; omega
      have e1 : (kPwdPlaceholder.take k ++ kPwdPlaceholder ++ []).take k
          = kPwdPlaceholder.take k := by
        rw [List.append_assoc, List.take_left' hkl]
      have e2 : (kPwdPlaceholder.take k ++ kPwdPlaceholder ++ []).drop (k + 6) = [] := by
        apply List.drop_of_length_le
        simp only [List.length_append, hkl, kPwdPlaceholder_length, List.length_nil]
        omega
      refine ⟨kPwdPlaceholder.take k ++ kPwdPlaceholder ++ [],
        occurrences_append_ne_nil _ _, ?_⟩
      rw [replace_pwd_placeholder_some pwd hf, e1, e2, hnil, ← ht, List.append_nil,
        ← List.append_assoc, List.take_append_drop]
      have := occurrences_append_ne_nil [] t
      rwa [List.nil_append] at this
    · -- the argument is the placeholder, then the ending of the placeholder
      obtain ⟨t, ht⟩ := hsuf
      have hf : find (kPwdPlaceholder ++ kPwdPlaceholder.drop k) kPwdPlaceholder 0
          = some 0 := by
        have hd : ∀ m, m < 6 →
            find (kPwdPlaceholder ++ kPwdPlaceholder.drop m) kPwdPlaceholder 0
              = some 0 := by decide
        exact hd k hk
      have e2 : (kPwdPlaceholder ++ kPwdPlaceholder.drop k).drop (0 + 6)
          = kPwdPlaceholder.drop k := by
        rw [Nat.zero_add, ← kPwdPlaceholder_length, List.drop_left]
      refine ⟨kPwdPlaceholder ++ kPwdPlaceholder.drop k, ?_, ?_⟩
      · have := occurrences_append_ne_nil [] (kPwdPlaceholder.drop k)
        rwa [List.nil_append] at this
      · rw [replace_pwd_placeholder_some pwd hf, e2, replace_pwd_placeholder_drop pwd k hk0,
          List.take_zero, List.nil_append, ← ht, List.append_assoc, List.take_append_drop]
        have := occurrences_append_ne_nil t []
        rwa [List.append_nil] at this

/-! ## Placeholder substitution -/

/-- C1, as stated, fails: for the argument `${pwd}` and a working directory whose text is
`${pwd}`, the argument has an occurrence of the placeholder and so has the result,
because the inserted text is not scanned. -/
theorem placeholder_survives_in_inserted_text :
    occurrences "${pwd}".toList ≠ [] ∧
      replace_pwd_placeholder "${pwd}".toList "${pwd}".toList = "${pwd}".toList ∧
      occurrences (replace_pwd_placeholder "${pwd}".toList "${pwd}".toList) = [0] := by
  have h := replace_pwd_placeholder_of_fuel "${pwd}".toList "${pwd}".toList "${pwd}".toList
    (by decide)
  rw [h]
  decide

/-- C1, amended: for every argument with at least one occurrence of `${pwd}` and every
working directory that has no overlap with the placeholder (it is not a part of `${pwd}`,
does not contain `${pwd}`, does not begin with a proper ending of `${pwd}` and does not
end with a proper beginning of it), the result has no occurrence of `${pwd}`. -/
theorem replace_pwd_placeholder_no_occurrence_of_overlapFree (arg pwd : Str)
    (hocc : occurrences arg ≠ []) (hfree : overlapFree pwd) :
    occurrences (replace_pwd_placeholder arg pwd) = [] :=
  occurrences_eq_nil
    (occursAt_replace_pwd_placeholder_eq_false pwd (overlapFree_separates hfree)
      arg.length arg (le_refl _))

/-- Two occurrences replaced by a working directory with a `'$'` inside and a first
character `'d'`. -/
theorem replace_pwd_placeholder_no_occurrence_of_overlapFree_witness :
    occurrences "-I${pwd}/include:${pwd}".toList = [2, 17] ∧
      occurrences (replace_pwd_placeholder "-I${pwd}/include:${pwd}".toList
        "d:\\work\\$tmp\\p{w}d".toList) = [] :=
  ⟨by decide,
    replace_pwd_placeholder_no_occurrence_of_overlapFree "-I${pwd}/include:${pwd}".toList
      "d:\\work\\$tmp\\p{w}d".toList (by decide) (by decide)⟩

/-- C2: `replace_pwd_placeholder` equals the reference single-pass substitution for every
argument and working directory; the argument `${pwd}/data` with the working directory
`/home/u/proj` gives `/home/u/proj/data`. -/
theorem replace_pwd_placeholder_refines_reference :
    (∀ arg pwd : Str, replace_pwd_placeholder arg pwd = substitute_reference arg pwd) ∧
      replace_pwd_placeholder "${pwd}/data".toList "/home/u/proj".toList
        = "/home/u/proj/data".toList :=
  ⟨fun arg pwd => replace_pwd_placeholder_eq_reference pwd arg.length arg (le_refl _),
    replace_pwd_placeholder_of_fuel _ _ _ (by decide)⟩

/-- C3: on an argument without an occurrence of `${pwd}` the substitution is the
identity, for every working directory. -/
theorem replace_pwd_placeholder_id_of_no_occurrence (arg pwd : Str)
    (h : occurrences arg = []) : replace_pwd_placeholder arg pwd = arg := by
  apply replace_pwd_placeholder_none
  rw [find_zero_eq_head?, h]
  rfl

/-- The variants `${PWD}`, `$pwd` and an unfinished `${pwd` are left as they are. -/
theorem replace_pwd_placeholder_id_of_no_occurrence_witness :
    occurrences "$\x7bPWD\x7d/$pwd/$\x7bpwd".toList = [] ∧
      replace_pwd_placeholder "$\x7bPWD\x7d/$pwd/$\x7bpwd".toList "/home/u/proj".toList
        = "$\x7bPWD\x7d/$pwd/$\x7bpwd".toList :=
  ⟨by decide,
    replace_pwd_placeholder_id_of_no_occurrence "$\x7bPWD\x7d/$pwd/$\x7bpwd".toList
      "/home/u/proj".toList (by decide)⟩

/-- C9: `replace_pwd_placeholder` returns for every argument and working directory: the
loop run with a budget of `arg.length + 1` iterations ends within the budget, with the
result of the function; and each iteration lowers `out.length - pos`. -/
theorem replace_pwd_placeholder_terminates (arg pwd : Str) :
    replaceLoopFuel pwd (arg.length + 1) arg 0 = some (replace_pwd_placeholder arg pwd) ∧
      ∀ (out : Str) (pos p : Nat), find out kPwdPlaceholder pos = some p →
        (replace out p kPwdPlaceholder.length pwd).length - (p + pwd.length)
          < out.length - pos := by
  refine ⟨replaceLoopFuel_eq pwd _ _ _ (by omega), fun out pos p h => ?_⟩
  have hb := find_bounds h
  rw [kPwdPlaceholder_length] at hb ⊢
  simp only [replace, List.length_append, List.length_take, List.length_drop]
  omega

/-- C10: for every argument and every working directory that is not empty, begins with
`'/'` and contains no `'$'`, the result has no occurrence of `${pwd}`. -/
theorem replace_pwd_placeholder_no_occurrence_of_absolute (arg pwd : Str)
    (hne : pwd ≠ []) (hslash : pwd.head? = some '/') (hd : '$' ∉ pwd) :
    occurrences (replace_pwd_placeholder arg pwd) = [] :=
  occurrences_eq_nil
    (occursAt_replace_pwd_placeholder_eq_false pwd
      (overlapFree_separates (overlapFree_of_absolute hne hslash hd))
      arg.length arg (le_refl _))

/-- An argument with fragments of the placeholder around its occurrences. -/
theorem replace_pwd_placeholder_no_occurrence_of_absolute_witness :
    occurrences (replace_pwd_placeholder "${${pwd}pwd}$${pwd}{pwd}".toList
      "/home/u/proj".toList) = [] :=
  replace_pwd_placeholder_no_occurrence_of_absolute "${${pwd}pwd}$${pwd}{pwd}".toList
    "/home/u/proj".toList (by decide) (by decide) (by decide)

/-! ## The flow of `main` -/

/-- The start of the forwarded command, in the words of the specification: index `2`
when the argument at index `1` is the separator, index `1` otherwise. -/
theorem first_arg_index_eq (argv : List Str) :
    first_arg_index argv = if argv[1]? = some separator then 2 else 1 := by
  unfold first_arg_index
  by_cases h : argv[1]? = some separator
  · have hlt : 1 < argv.length := by
      by_contra hc
      rw [List.getElem?_eq_none (by omega)] at h
      cases h
    rw [if_pos ⟨hlt, h⟩, if_pos h]
  · rw [if_neg (fun hc => h hc.2), if_neg h]

/-- C4: for a non-empty forwarded command, with `start` being `2` when `argv[1]` is `--`
and `1` otherwise, `command_args` has `argc - start` elements, its `i`-th element is
`replace_pwd_placeholder(argv[start + i], pwd)`, and this is the command `main` hands to
`execvp` when `getcwd` answers `pwd`. -/
theorem command_args_elementwise (argv : List Str) (pwd : Str)
    (h : first_arg_index argv < argv.length) :
    ∃ start, start = (if argv[1]? = some separator then 2 else 1) ∧
      (command_args argv pwd).length = argv.length - start ∧
      (∀ i, i < argv.length - start →
        (command_args argv pwd)[i]?
          = (argv[start + i]?).map (fun a => replace_pwd_placeholder a pwd)) ∧
      ∀ sys : System, sys.getcwd = some pwd →
        ∃ exec_argv,
          (main .posix sys argv).calls = [.getcwd, .execvp exec_argv.head?.join exec_argv] ∧
          launched_command exec_argv = command_args argv pwd := by
  refine ⟨first_arg_index argv, first_arg_index_eq argv, ?_, ?_, ?_⟩
  · rw [command_args_eq_map, List.length_map, List.length_drop]
  · intro i _
    rw [command_args_eq_map, List.getElem?_map, List.getElem?_drop]
  · intro sys hcwd
    refine ⟨build_exec_argv (command_args argv pwd), ?_, launched_command_build_exec_argv _⟩
    unfold main
    rw [if_neg (by omega), hcwd]
    simp only [exec_argv, normalize_executable, launch]
    split <;> rfl

/-- The invocation `launcher -- echo -- ${pwd}/data`: the separator at index `3` is
forwarded. -/
theorem command_args_elementwise_witness :
    ∃ start, start = 2 ∧
      (command_args ["launcher".toList, "--".toList, "echo".toList, "--".toList,
        "${pwd}/data".toList] "/home/u/proj".toList).length = 5 - start ∧
      (∀ i, i < 5 - start →
        (command_args ["launcher".toList, "--".toList, "echo".toList, "--".toList,
          "${pwd}/data".toList] "/home/u/proj".toList)[i]?
          = (["launcher".toList, "--".toList, "echo".toList, "--".toList,
              "${pwd}/data".toList][start + i]?).map
            (fun a => replace_pwd_placeholder a "/home/u/proj".toList)) ∧
      ∀ sys : System, sys.getcwd = some "/home/u/proj".toList →
        ∃ exec_argv,
          (main .posix sys ["launcher".toList, "--".toList, "echo".toList, "--".toList,
            "${pwd}/data".toList]).calls
              = [.getcwd, .execvp exec_argv.head?.join exec_argv] ∧
          launched_command exec_argv
            = command_args ["launcher".toList, "--".toList, "echo".toList, "--".toList,
              "${pwd}/data".toList] "/home/u/proj".toList :=
  command_args_elementwise ["launcher".toList, "--".toList, "echo".toList, "--".toList,
    "${pwd}/data".toList] "/home/u/proj".toList (by decide)

/-- The forwarded command is empty exactly when `main` takes the branch of line 49. -/
theorem forwarded_empty_iff (argv : List Str) :
    argv.drop (first_arg_index argv) = [] ↔ first_arg_index argv ≥ argv.length := by
  rw [List.drop_eq_nil_iff]

/-- C5: the launcher reports a missing command exactly when the forwarded command is
empty, that is when `argv` has no element after the launcher name or is `[name, "--"]`;
the run then makes no call to the operating system and ends with status `1`. The
invocation `launcher` without arguments is such a run. -/
theorem missing_command_iff :
    (∀ (plat : Platform) (sys : System) (argv : List Str),
      ((main plat sys argv).stderr = missing_command.stderr
        ↔ argv.drop (first_arg_index argv) = []) ∧
      (argv.drop (first_arg_index argv) = []
        ↔ argv.drop 1 = [] ∨ ∃ name, argv = [name, separator]) ∧
      (argv.drop (first_arg_index argv) = [] →
        main plat sys argv = missing_command ∧ (main plat sys argv).calls = [] ∧
          (main plat sys argv).finish = .exit 1)) ∧
      ∀ (plat : Platform) (sys : System),
        main plat sys ["launcher".toList] = missing_command := by
  refine ⟨fun plat sys argv => ⟨?_, ?_, ?_⟩, fun plat sys => rfl⟩
  · rw [forwarded_empty_iff]
    constructor
    · intro h
      by_contra hc
      unfold main at h
      rw [if_neg hc] at h
      cases hcwd : sys.getcwd with
      | none =>
        rw [hcwd] at h
        simp [missing_command] at h
      | some pwd =>
        rw [hcwd] at h
        cases plat <;> simp only [launch] at h <;> split at h <;>
          simp [missing_command] at h
    · intro h
      unfold main
      rw [if_pos h]
  · rw [forwarded_empty_iff, first_arg_index_eq]
    match argv with
    | [] => simp
    | [a] => simp
    | [a, b] =>
      by_cases hb : b = separator
      · subst hb
        simp
      · simp [hb]
    | a :: b :: c :: t =>
      simp only [List.length_cons, List.drop_succ_cons, List.drop_zero]
      constructor
      · intro h
        split at h <;> omega
      · intro h
        simp at h
  · intro h
    rw [forwarded_empty_iff] at h
    have : main plat sys argv = missing_command := by
      unfold main
      rw [if_pos h]
    rw [this]
    exact ⟨rfl, rfl, rfl⟩

/-- A non-empty forwarded command gives a non-empty `command_args`. -/
theorem command_args_ne_nil (argv : List Str) (pwd : Str)
    (h : first_arg_index argv < argv.length) : command_args argv pwd ≠ [] := by
  intro hc
  have := congrArg List.length hc
  rw [command_args_eq_map, List.length_map, List.length_drop, List.length_nil] at this
  omega

/-- What `main` does after `getcwd` has answered `pwd`, for a non-empty command. -/
theorem main_of_getcwd (plat : Platform) (sys : System) (argv : List Str) (pwd : Str)
    (h : first_arg_index argv < argv.length) (hcwd : sys.getcwd = some pwd) :
    main plat sys argv
      = { launch plat sys (exec_argv plat argv pwd) with
          calls := .getcwd :: (launch plat sys (exec_argv plat argv pwd)).calls } := by
  unfold main
  rw [if_neg (by omega), hcwd]

/-- The loop of lines 69-73 keeps the length and every character but `'/'`, which it
turns into a backslash. -/
theorem normalize_separators_spec (s : Str) :
    (normalize_separators s).length = s.length ∧
      ∀ (k : Nat) (c : Char), s[k]? = some c →
        (normalize_separators s)[k]? = some (if c = '/' then '\\' else c) := by
  unfold normalize_separators
  refine ⟨List.length_map _ _, fun k c h => ?_⟩
  rw [List.getElem?_map, h]
  rfl

/-- C6: under `_WIN32`, for a non-empty command, element `0` of the launched command is
the substituted executable with every `'/'` turned into a backslash, its other characters
and its length unchanged, and every element at an index `≥ 1` is the substituted text as
it is. -/
theorem win32_normalizes_only_executable (sys : System) (argv : List Str) (pwd : Str)
    (h : first_arg_index argv < argv.length) (hcwd : sys.getcwd = some pwd) :
    ∃ argv_out exe exe_out,
      (main .win32 sys argv).calls = [.getcwd, ._spawnvp (some exe_out) argv_out] ∧
      (command_args argv pwd)[0]? = some exe ∧
      (launched_command argv_out)[0]? = some exe_out ∧
      exe_out.length = exe.length ∧
      (∀ (k : Nat) (c : Char), exe[k]? = some c →
        exe_out[k]? = some (if c = '/' then '\\' else c)) ∧
      (launched_command argv_out).length = (command_args argv pwd).length ∧
      ∀ i, 1 ≤ i → (launched_command argv_out)[i]? = (command_args argv pwd)[i]? := by
  obtain ⟨exe, rest, hcmd⟩ := List.exists_cons_of_ne_nil (command_args_ne_nil argv pwd h)
  have hexec : exec_argv .win32 argv pwd
      = build_exec_argv (normalize_separators exe :: rest) := by
    unfold exec_argv
    rw [hcmd]
    rfl
  refine ⟨exec_argv .win32 argv pwd, exe, normalize_separators exe, ?_, ?_, ?_,
    (normalize_separators_spec exe).1, (normalize_separators_spec exe).2, ?_, ?_⟩
  · rw [main_of_getcwd .win32 sys argv pwd h hcwd, hexec]
    simp only [launch, build_exec_argv, List.map_cons, List.cons_append, List.head?_cons,
      Option.join]
    split <;> rfl
  · rw [hcmd]
    simp
  · rw [hexec, launched_command_build_exec_argv]
    simp
  · rw [hexec, launched_command_build_exec_argv, hcmd]
    rfl
  · intro i hi
    rw [hexec, launched_command_build_exec_argv, hcmd]
    obtain ⟨j, rfl⟩ : ∃ j, i = j + 1 := ⟨i - 1, by omega⟩
    rfl

/-- The command of the scenario `launcher -- tools/run.exe ${pwd}`. -/
theorem command_args_scenario :
    command_args ["launcher".toList, "--".toList, "tools/run.exe".toList, "${pwd}".toList]
      "C:/proj".toList = ["tools/run.exe".toList, "C:/proj".toList] := by
  rw [command_args_eq_map]
  have h1 := replace_pwd_placeholder_of_fuel "tools/run.exe".toList "C:/proj".toList
    "tools/run.exe".toList (by decide)
  have h2 := replace_pwd_placeholder_of_fuel "${pwd}".toList "C:/proj".toList
    "C:/proj".toList (by decide)
  have h3 : first_arg_index ["launcher".toList, "--".toList, "tools/run.exe".toList,
      "${pwd}".toList] = 2 := by decide
  rw [h3]
  simp only [List.drop_succ_cons, List.drop_zero, List.map_cons, List.map_nil, h1, h2]

/-- The scenario `launcher -- tools/run.exe ${pwd}` under `_WIN32`, the working directory
being `C:/proj`: the executable is `tools\run.exe` and the argument keeps its `'/'`. -/
theorem win32_normalizes_only_executable_witness :
    (∃ argv_out exe exe_out,
      (main .win32 (scenario_system (some "C:/proj".toList) true (.exited 0))
        ["launcher".toList, "--".toList, "tools/run.exe".toList, "${pwd}".toList]).calls
        = [.getcwd, ._spawnvp (some exe_out) argv_out] ∧
      (command_args ["launcher".toList, "--".toList, "tools/run.exe".toList, "${pwd}".toList]
        "C:/proj".toList)[0]? = some exe ∧
      (launched_command argv_out)[0]? = some exe_out ∧
      exe_out.length = exe.length ∧
      (∀ (k : Nat) (c : Char), exe[k]? = some c →
        exe_out[k]? = some (if c = '/' then '\\' else c)) ∧
      (launched_command argv_out).length
        = (command_args ["launcher".toList, "--".toList, "tools/run.exe".toList,
            "${pwd}".toList] "C:/proj".toList).length ∧
      ∀ i, 1 ≤ i → (launched_command argv_out)[i]?
        = (command_args ["launcher".toList, "--".toList, "tools/run.exe".toList,
            "${pwd}".toList] "C:/proj".toList)[i]?) ∧
      (main .win32 (scenario_system (some "C:/proj".toList) true (.exited 0))
        ["launcher".toList, "--".toList, "tools/run.exe".toList, "${pwd}".toList]).calls
        = [.getcwd, ._spawnvp (some "tools\\run.exe".toList)
            [some "tools\\run.exe".toList, some "C:/proj".toList, none]] := by
  refine ⟨win32_normalizes_only_executable
    (scenario_system (some "C:/proj".toList) true (.exited 0))
    ["launcher".toList, "--".toList, "tools/run.exe".toList, "${pwd}".toList]
    "C:/proj".toList (by decide) rfl, ?_⟩
  rw [main_of_getcwd .win32 _ _ "C:/proj".toList (by decide) rfl]
  unfold exec_argv
  rw [command_args_scenario]
  decide

/-- The conversion to `int` keeps the values of the 32-bit range. -/
theorem to_int_of_range (r : Int) (hlo : -2147483648 ≤ r) (hhi : r < 2147483648) :
    to_int r = r := by
  unfold to_int
  omega

/-- What `main` does under `_WIN32` after `getcwd` has answered and the child has run:
the status of the child, stored in an `int`, is returned unless it is `-1`. -/
theorem main_of_exited (sys : System) (argv : List Str) (pwd : Str) (s : Int)
    (h : first_arg_index argv < argv.length) (hcwd : sys.getcwd = some pwd)
    (hspawn : sys._spawnvp (exec_argv .win32 argv pwd).head?.join (exec_argv .win32 argv pwd)
      = .exited s) :
    (to_int s = -1 →
      (main .win32 sys argv).finish = .exit 1 ∧
        (main .win32 sys argv).stderr = [.perror "bootstrap_process_wrapper: _spawnvp"]) ∧
    (to_int s ≠ -1 →
      (main .win32 sys argv).finish = .exit (to_int s) ∧
        (main .win32 sys argv).stderr = []) := by
  rw [main_of_getcwd .win32 sys argv pwd h hcwd]
  constructor
  · intro hs
    simp only [launch, hspawn, SpawnOutcome.returnValue, if_pos hs, and_self]
  · intro hs
    simp only [launch, hspawn, SpawnOutcome.returnValue, if_neg hs, and_self]

/-- C7, as stated, fails at the status `-1` and at the statuses outside the range of a
32-bit `int`: under `_WIN32`, when the child is started and ends with status `-1`, `main`
takes the value returned by `_spawnvp` for a failed launch, writes a `perror` line and
ends with status `1`; when the value returned for the child is `4294967299`, `main`
returns `3`. -/
theorem spawn_status_minus_one_reported_as_failure :
    (scenario_system (some "C:/proj".toList) true (.exited (-1)))._spawnvp
        (exec_argv .win32 ["launcher".toList, "--".toList, "tool.exe".toList]
          "C:/proj".toList).head?.join
        (exec_argv .win32 ["launcher".toList, "--".toList, "tool.exe".toList]
          "C:/proj".toList) = .exited (-1) ∧
      (main .win32 (scenario_system (some "C:/proj".toList) true (.exited (-1)))
        ["launcher".toList, "--".toList, "tool.exe".toList]).finish = .exit 1 ∧
      (main .win32 (scenario_system (some "C:/proj".toList) true (.exited (-1)))
        ["launcher".toList, "--".toList, "tool.exe".toList]).stderr
        = [.perror "bootstrap_process_wrapper: _spawnvp"] ∧
      (main .win32 (scenario_system (some "C:/proj".toList) true (.exited 4294967299))
        ["launcher".toList, "--".toList, "tool.exe".toList]).finish = .exit 3 := by
  have h1 := (main_of_exited (scenario_system (some "C:/proj".toList) true (.exited (-1)))
    ["launcher".toList, "--".toList, "tool.exe".toList] "C:/proj".toList (-1)
    (by decide) rfl rfl).1 (by decide)
  have h2 := (main_of_exited
    (scenario_system (some "C:/proj".toList) true (.exited 4294967299))
    ["launcher".toList, "--".toList, "tool.exe".toList] "C:/proj".toList 4294967299
    (by decide) rfl rfl).2 (by decide)
  exact ⟨rfl, h1.1, h1.2, h2.1⟩

/-- C7, amended: under `_WIN32`, when the child is started and ends with a status `s`
that is in the range of a 32-bit `int` (`-2147483648 ≤ s < 2147483648`) and is not `-1`,
the launcher ends with status `s` and writes nothing to the error stream. -/
theorem spawn_status_propagated (sys : System) (argv : List Str) (pwd : Str) (s : Int)
    (h : first_arg_index argv < argv.length) (hcwd : sys.getcwd = some pwd)
    (hspawn : sys._spawnvp (exec_argv .win32 argv pwd).head?.join (exec_argv .win32 argv pwd)
      = .exited s)
    (hlo : -2147483648 ≤ s) (hhi : s < 2147483648) (hs : s ≠ -1) :
    (main .win32 sys argv).finish = .exit s ∧ (main .win32 sys argv).stderr = [] := by
  have hr := to_int_of_range s hlo hhi
  have := (main_of_exited sys argv pwd s h hcwd hspawn).2 (by rw [hr]; exact hs)
  rw [hr] at this
  exact this

/-- A child that ends with status `3`. -/
theorem spawn_status_propagated_witness :
    (main .win32 (scenario_system (some "C:/proj".toList) true (.exited 3))
        ["launcher".toList, "--".toList, "tool.exe".toList]).finish = .exit 3 ∧
      (main .win32 (scenario_system (some "C:/proj".toList) true (.exited 3))
        ["launcher".toList, "--".toList, "tool.exe".toList]).stderr = [] :=
  spawn_status_propagated (scenario_system (some "C:/proj".toList) true (.exited 3))
    ["launcher".toList, "--".toList, "tool.exe".toList] "C:/proj".toList 3
    (by decide) rfl rfl (by decide) (by decide) (by decide)

/-- The launch calls of a run: the calls other than `getcwd`. -/
theorem launch_calls_le_one (plat : Platform) (sys : System) (argv : List Str) :
    ((main plat sys argv).calls.filter (fun c => decide (c ≠ Call.getcwd))).length ≤ 1 ∧
      ((main plat sys argv).calls.filter (fun c => decide (c = Call.getcwd))).length ≤ 1 := by
  unfold main
  split
  · exact ⟨by decide, by decide⟩
  · split
    · exact ⟨by decide, by decide⟩
    · cases plat <;> simp only [launch] <;> split <;> simp

/-- C8: for a non-empty forwarded command, a failed `getcwd` ends the run with status `1`
after that one call, without a launch; a failed launch (`execvp` returns, `_spawnvp`
reports that the child was not started) ends the run with status `1` after one `getcwd`
and one launch call; no run makes more than one launch call; and every run that ends by
`main` returning after a write to the error stream returns `1`. -/
theorem failures_exit_one (plat : Platform) (sys : System) (argv : List Str)
    (h : first_arg_index argv < argv.length) :
    (sys.getcwd = none →
      main plat sys argv
        = { calls := [.getcwd], stderr := [.perror "bootstrap_process_wrapper: getcwd"],
            finish := .exit 1 }) ∧
    (∀ pwd, sys.getcwd = some pwd →
      sys.execvp (exec_argv .posix argv pwd).head?.join (exec_argv .posix argv pwd) = false →
      main .posix sys argv
        = { calls := [.getcwd,
              .execvp (exec_argv .posix argv pwd).head?.join (exec_argv .posix argv pwd)],
            stderr := [.perror "bootstrap_process_wrapper: execvp"], finish := .exit 1 }) ∧
    (∀ pwd, sys.getcwd = some pwd →
      sys._spawnvp (exec_argv .win32 argv pwd).head?.join (exec_argv .win32 argv pwd)
        = .launchFailed →
      main .win32 sys argv
        = { calls := [.getcwd,
              ._spawnvp (exec_argv .win32 argv pwd).head?.join (exec_argv .win32 argv pwd)],
            stderr := [.perror "bootstrap_process_wrapper: _spawnvp"], finish := .exit 1 }) ∧
    ((main plat sys argv).calls.filter (fun c => decide (c ≠ Call.getcwd))).length ≤ 1 ∧
    ((main plat sys argv).stderr ≠ [] → (main plat sys argv).finish = .exit 1) := by
  refine ⟨?_, ?_, ?_, (launch_calls_le_one plat sys argv).1, ?_⟩
  · intro hcwd
    unfold main
    rw [if_neg (by omega), hcwd]
  · intro pwd hcwd hexec
    rw [main_of_getcwd .posix sys argv pwd h hcwd]
    simp only [launch, hexec]
    rfl
  · intro pwd hcwd hspawn
    rw [main_of_getcwd .win32 sys argv pwd h hcwd]
    have hm : to_int (-1) = -1 := by decide
    simp only [launch, hspawn, SpawnOutcome.returnValue, hm]
    rfl
  · unfold main
    rw [if_neg (by omega)]
    split
    · intro _; rfl
    · cases plat <;> simp only [launch] <;> split <;> simp

/-- The scenario `launcher -- /nonexistent/binary` with a failing `execvp`. -/
theorem failures_exit_one_witness :
    main .posix (scenario_system (some "/home/u/proj".toList) false .launchFailed)
        ["launcher".toList, "--".toList, "/nonexistent/binary".toList]
      = { calls := [.getcwd,
            .execvp (some "/nonexistent/binary".toList)
              [some "/nonexistent/binary".toList, none]],
          stderr := [.perror "bootstrap_process_wrapper: execvp"], finish := .exit 1 } := by
  have hw := (failures_exit_one .posix
    (scenario_system (some "/home/u/proj".toList) false .launchFailed)
    ["launcher".toList, "--".toList, "/nonexistent/binary".toList] (by decide)).2.1
    "/home/u/proj".toList rfl rfl
  have hcmd : command_args ["launcher".toList, "--".toList, "/nonexistent/binary".toList]
      "/home/u/proj".toList = ["/nonexistent/binary".toList] := by
    rw [command_args_eq_map]
    have h1 := replace_pwd_placeholder_of_fuel "/nonexistent/binary".toList
      "/home/u/proj".toList "/nonexistent/binary".toList (by decide)
    have h3 : first_arg_index ["launcher".toList, "--".toList,
        "/nonexistent/binary".toList] = 2 := by decide
    rw [h3]
    simp only [List.drop_succ_cons, List.drop_zero, List.map_cons, List.map_nil, h1]
  rw [hw]
  unfold exec_argv
  rw [hcmd]
  rfl

end BootstrapProcessWrapper
